import Mathlib

/-!
Verification development for the `editorview` text-editing engine.

The repository `editor.go` contains two iterations of the engine plus its
tests.  The definitions below are a shallow embedding of the final (most
complete) iteration — the markup tokenizer `parseTokens`, the coordinate
flattener `flattenWithIndex`, the dual-space search/replace loop `replace`,
the `deleteAt` escape-aware deletion, the scrolling/`lineOffset` logic, and
the undo/redo event wrapper of `pollKeys` — together with the superseded
iteration's `replace` index construction where a claim refers to it.
Go strings are modelled as `List Char` (rune sequences), Go `int` as `Int`
(`Nat` for offsets that are list lengths by construction).
-/

set_option maxRecDepth 10000

/-- A zero-based column/row pair, Go `point{x, y int}`. -/
structure Point where
  x : Int
  y : Int
deriving DecidableEq, Repr

/-- An ordered pair of Points delimiting a range, Go `segment [2]point`. -/
structure Segment where
  a : Point
  b : Point
deriving DecidableEq, Repr

/-- Go `stringToRunes`: split a rune sequence into lines at each newline
(`strings.Split(s, "\n")`): always at least one (possibly empty) line. -/
def stringToRunes : List Char → List (List Char)
  | [] => [[]]
  | c :: rest =>
    let r := stringToRunes rest
    if c = '\n' then [] :: r
    else (c :: r.headD []) :: r.tail

/-- Go `runesToString`: join lines with a newline between consecutive lines. -/
def runesToString : List (List Char) → List Char
  | [] => []
  | [l] => l
  | l :: rest => l ++ '\n' :: runesToString rest

/-- Go `strings.ReplaceAll(s, pat, repl)` for a non-empty pattern:
replace non-overlapping leftmost occurrences.  (Go treats an empty pattern
specially; the engine only substitutes the non-empty patterns `&`, `<`, `>`.) -/
def goStringReplaceAll (pat repl : List Char) : List Char → List Char
  | [] => []
  | c :: rest =>
    if h : pat = [] then c :: rest
    else if pat.isPrefixOf (c :: rest) then
      repl ++ goStringReplaceAll pat repl ((c :: rest).drop pat.length)
    else
      c :: goStringReplaceAll pat repl rest
termination_by s => s.length
decreasing_by
  · simp only [List.length_drop, List.length_cons]
    have : 0 < pat.length := List.length_pos.mpr h
    omega
  · simp

/-- Go `Escape`: escape literal `&`, `<`, `>` as `&amp;`, `&lt;`, `&gt;`. -/
def Escape (s : List Char) : List Char :=
  goStringReplaceAll ['>'] "&gt;".toList
    (goStringReplaceAll ['<'] "&lt;".toList
      (goStringReplaceAll ['&'] "&amp;".toList s))

/-- The payload of one parsed token (`token` in Go carries exactly one of
these set, plus its raw position and raw character span). -/
inductive TokenKind where
  | start
  | chr (r : Char)
  | newline
  | eof
  | selectStart
  | selectEnd
  | style (fg bg : Nat)
deriving DecidableEq, Repr

/-- Go `token`: kind, originating raw Point `pos`, and the raw character
span `buffer` accumulated since the previous emitted token. -/
structure Token where
  pos : Point
  buffer : List Char
  kind : TokenKind
deriving DecidableEq, Repr

/-- Tokenizer state machine states (Go `parseState`). -/
inductive ParseState where
  | visible
  | escape
  | tag
deriving DecidableEq, Repr

def selectFromToken : List Char := "<select-from>".toList

def selectToToken : List Char := "<select-to>".toList

/-- One character is a hexadecimal digit (`[A-Fa-f0-9]` of `colorTagPattern`). -/
def hexDigit (c : Char) : Bool :=
  ('0' ≤ c && c ≤ '9') || ('a' ≤ c && c ≤ 'f') || ('A' ≤ c && c ≤ 'F')

/-- Numeric value of a hex digit (as parsed by `strconv.ParseUint(_, 16, 64)`). -/
def hexVal (c : Char) : Nat :=
  if '0' ≤ c && c ≤ '9' then c.toNat - '0'.toNat
  else if 'a' ≤ c && c ≤ 'f' then c.toNat - 'a'.toNat + 10
  else if 'A' ≤ c && c ≤ 'F' then c.toNat - 'A'.toNat + 10
  else 0

/-- Hex string to number, most significant digit first. -/
def hexNat (s : List Char) : Nat :=
  s.foldl (fun acc c => 16 * acc + hexVal c) 0

/-- Strip a literal from the front of a list, or fail. -/
def stripLit : List Char → List Char → Option (List Char)
  | [], s => some s
  | _ :: _, [] => none
  | p :: ps, c :: cs => if c = p then stripLit ps cs else none

/-- Take exactly `n` hex digits from the front of a list, or fail. -/
def grabHex : Nat → List Char → Option (List Char × List Char)
  | 0, s => some ([], s)
  | _ + 1, [] => none
  | n + 1, c :: cs =>
    if hexDigit c then (grabHex n cs).map (fun p => (c :: p.1, p.2)) else none

/-- Match `colorTagPattern` = `<color:([A-Fa-f0-9]{6}):([A-Fa-f0-9]{6})>`
anchored at the head of `s`, returning the parsed foreground/background. -/
def matchColorAt (s : List Char) : Option (Nat × Nat) :=
  (stripLit "<color:".toList s).bind fun s1 =>
    (grabHex 6 s1).bind fun p1 =>
      (stripLit [':'] p1.2).bind fun s3 =>
        (grabHex 6 s3).bind fun p2 =>
          (stripLit ['>'] p2.2).map fun _ => (hexNat p1.1, hexNat p2.1)

/-- Go `colorTagPattern.FindStringSubmatch`: the regex is searched (not
anchored), so scan left to right for the first position where it matches. -/
def colorTagFind : List Char → Option (Nat × Nat)
  | [] => none
  | c :: rest =>
    match matchColorAt (c :: rest) with
    | some r => some r
    | none => colorTagFind rest

/-- Mutable tokenizer state threaded through `parseTokens`: the state-machine
state, the inside-selection flag, the accumulated `t.buffer` (cleared only
when a token is emitted), the last `t.pos.x` assignment, and the inner loop
variable `tmpX` (which persists across lines, as in Go). -/
structure PTState where
  st : ParseState
  inSelection : Bool
  buffer : List Char
  posX : Int
  tmpX : Int
deriving DecidableEq, Repr

/-- One step of the tokenizer inner loop: consume rune `r` at column `x` of
line `y` (Go `parseTokens` body, final iteration: the rune is appended to
`t.buffer` first, `t.pos.x` is assigned only in the `visible` state, and the
buffer is cleared exactly when a token is emitted). -/
def parseStep (y : Int) (s : PTState) (x : Int) (r : Char) : PTState × List Token :=
  let s := { s with buffer := s.buffer ++ [r], tmpX := x }
  match s.st with
  | ParseState.visible =>
    let s := { s with posX := x }
    if r = '&' then ({ s with st := ParseState.escape }, [])
    else if r = '<' then ({ s with st := ParseState.tag }, [])
    else ({ s with buffer := [] }, [⟨⟨x, y⟩, s.buffer, TokenKind.chr r⟩])
  | ParseState.escape =>
    if r = ';' then
      if s.buffer = "&amp;".toList then
        ({ s with st := ParseState.visible, buffer := [] },
          [⟨⟨s.posX, y⟩, s.buffer, TokenKind.chr '&'⟩])
      else if s.buffer = "&lt;".toList then
        ({ s with st := ParseState.visible, buffer := [] },
          [⟨⟨s.posX, y⟩, s.buffer, TokenKind.chr '<'⟩])
      else if s.buffer = "&gt;".toList then
        ({ s with st := ParseState.visible, buffer := [] },
          [⟨⟨s.posX, y⟩, s.buffer, TokenKind.chr '>'⟩])
      else ({ s with st := ParseState.visible }, [])
    else (s, [])
  | ParseState.tag =>
    if r = '>' then
      if s.buffer = selectFromToken ∨ s.buffer = selectToToken then
        if s.inSelection then
          ({ s with st := ParseState.visible, buffer := [], inSelection := false },
            [⟨⟨s.posX, y⟩, s.buffer, TokenKind.selectEnd⟩])
        else
          ({ s with st := ParseState.visible, buffer := [], inSelection := true },
            [⟨⟨s.posX, y⟩, s.buffer, TokenKind.selectStart⟩])
      else
        match colorTagFind s.buffer with
        | some (fg, bg) =>
          ({ s with st := ParseState.visible, buffer := [] },
            [⟨⟨s.posX, y⟩, s.buffer, TokenKind.style fg bg⟩])
        | none => ({ s with st := ParseState.visible }, [])
    else (s, [])

/-- Inner loop of `parseTokens` over one raw line, starting at column `x`. -/
def parseLine (y : Int) : PTState → Int → List Char → PTState × List Token
  | s, _, [] => (s, [])
  | s, x, r :: rest =>
    let p1 := parseStep y s x r
    let p2 := parseLine y p1.1 (x + 1) rest
    (p2.1, p1.2 ++ p2.2)

/-- Outer loop of `parseTokens`: each non-final line is followed by a
`newline` token at `x = tmpX + 1` (with a reset to `visible`), the final line
by the `eof` token; the newline/eof tokens carry any leftover buffer. -/
def parseTokensFrom : Int → PTState → List (List Char) → List Token
  | _, _, [] => []
  | y, s, [line] =>
    let p := parseLine y s 0 line
    p.2 ++ [⟨⟨p.1.tmpX + 1, y⟩, p.1.buffer, TokenKind.eof⟩]
  | y, s, line :: rest =>
    let p := parseLine y s 0 line
    p.2 ++ ⟨⟨p.1.tmpX + 1, y⟩, p.1.buffer, TokenKind.newline⟩ ::
      parseTokensFrom (y + 1)
        { p.1 with st := ParseState.visible, buffer := [], posX := p.1.tmpX + 1 } rest

/-- Go `parseTokens` (final iteration, lines 1747-1824): emit `start`, then
tokenize every line, then `eof`. -/
def parseTokens (buffer : List (List Char)) : List Token :=
  let startTok : Token := ⟨⟨0, 0⟩, [], TokenKind.start⟩
  match buffer with
  | [] => [startTok, ⟨⟨1, 0⟩, [], TokenKind.eof⟩]
  | _ => startTok :: parseTokensFrom 0 ⟨ParseState.visible, false, [], 0, 0⟩ buffer

/-- One entry of the flat index (Go `flatIndex`): a flat position mapped back
to its raw and screen coordinates, plus its offset in `flatRaw`. -/
structure FlatIndex where
  raw : Point
  screen : Point
  flatRaw : Nat
deriving DecidableEq, Repr

/-- The accumulator of `flattenWithIndex`: the two flat character sequences,
the two index tables, and the running screen position. -/
structure FlattenState where
  flatRaw : List Char
  flatScreen : List Char
  rawIndex : List FlatIndex
  screenIndex : List FlatIndex
  screenPos : Point
deriving DecidableEq, Repr

/-- One `rawIndex` entry per raw character of a token's buffer, with the raw
x coordinate and the `flatRaw` offset advancing in lockstep. -/
def rawEntries (p sp : Point) (base : Nat) : List Char → List FlatIndex
  | [] => []
  | _ :: rest => ⟨p, sp, base⟩ :: rawEntries ⟨p.x + 1, p.y⟩ sp (base + 1) rest

/-- One token's effect in `flattenWithIndex` (Go lines 1045-1087): a
`character` token records one `rawIndex` entry per raw byte of its span and
one `screenIndex` entry; `newline` records one entry in each table and a
newline in both flat sequences; `eof` records one entry in each table and
nothing else; every other token records `rawIndex` entries for its span and
appends the span to `flatRaw` only. -/
def flattenStep (s : FlattenState) (t : Token) : FlattenState :=
  match t.kind with
  | TokenKind.chr r =>
    { flatRaw := s.flatRaw ++ t.buffer
      flatScreen := s.flatScreen ++ [r]
      rawIndex := s.rawIndex ++ rawEntries t.pos s.screenPos s.flatRaw.length t.buffer
      screenIndex := s.screenIndex ++ [⟨t.pos, s.screenPos, s.flatRaw.length⟩]
      screenPos := ⟨s.screenPos.x + 1, s.screenPos.y⟩ }
  | TokenKind.newline =>
    { flatRaw := s.flatRaw ++ ['\n']
      flatScreen := s.flatScreen ++ ['\n']
      rawIndex := s.rawIndex ++ [⟨t.pos, s.screenPos, s.flatRaw.length⟩]
      screenIndex := s.screenIndex ++ [⟨t.pos, s.screenPos, s.flatRaw.length⟩]
      screenPos := ⟨0, s.screenPos.y + 1⟩ }
  | TokenKind.eof =>
    { flatRaw := s.flatRaw
      flatScreen := s.flatScreen
      rawIndex := s.rawIndex ++ [⟨t.pos, s.screenPos, s.flatRaw.length⟩]
      screenIndex := s.screenIndex ++ [⟨t.pos, s.screenPos, s.flatRaw.length⟩]
      screenPos := s.screenPos }
  | _ =>
    { flatRaw := s.flatRaw ++ t.buffer
      flatScreen := s.flatScreen
      rawIndex := s.rawIndex ++ rawEntries t.pos s.screenPos s.flatRaw.length t.buffer
      screenIndex := s.screenIndex
      screenPos := s.screenPos }

/-- Go `flattenWithIndex` (final iteration, lines 1045-1087). -/
def flattenWithIndex (rs : List (List Char)) : FlattenState :=
  (parseTokens rs).foldl flattenStep ⟨[], [], [], [], ⟨0, 0⟩⟩

/-- C3: for the input `"abc\n<select-from>def<select-to>\nghi"`, `parseTokens`
emits exactly: start; chars a,b,c at (0,0),(1,0),(2,0); newline at (3,0);
selectionStart at (0,1); chars d,e,f at (13,1),(14,1),(15,1); selectionEnd at
(16,1); newline at (27,1); chars g,h,i at (0,2),(1,2),(2,2); eof at (3,2) —
raw offsets including the selection tag lengths. -/
theorem parseTokens_example :
    parseTokens (stringToRunes "abc\n<select-from>def<select-to>\nghi".toList) =
      [⟨⟨0, 0⟩, [], TokenKind.start⟩,
       ⟨⟨0, 0⟩, ['a'], TokenKind.chr 'a'⟩,
       ⟨⟨1, 0⟩, ['b'], TokenKind.chr 'b'⟩,
       ⟨⟨2, 0⟩, ['c'], TokenKind.chr 'c'⟩,
       ⟨⟨3, 0⟩, [], TokenKind.newline⟩,
       ⟨⟨0, 1⟩, "<select-from>".toList, TokenKind.selectStart⟩,
       ⟨⟨13, 1⟩, ['d'], TokenKind.chr 'd'⟩,
       ⟨⟨14, 1⟩, ['e'], TokenKind.chr 'e'⟩,
       ⟨⟨15, 1⟩, ['f'], TokenKind.chr 'f'⟩,
       ⟨⟨16, 1⟩, "<select-to>".toList, TokenKind.selectEnd⟩,
       ⟨⟨27, 1⟩, [], TokenKind.newline⟩,
       ⟨⟨0, 2⟩, ['g'], TokenKind.chr 'g'⟩,
       ⟨⟨1, 2⟩, ['h'], TokenKind.chr 'h'⟩,
       ⟨⟨2, 2⟩, ['i'], TokenKind.chr 'i'⟩,
       ⟨⟨3, 2⟩, [], TokenKind.eof⟩] := by
  decide

/-- The `flatRaw` offsets of the entries produced for one token span start at
`base`, are chained non-decreasingly, and stay within the span's length. -/
theorem rawEntries_facts (buf : List Char) : ∀ (p sp : Point) (base : Nat),
    List.Chain' (· ≤ ·) ((rawEntries p sp base buf).map FlatIndex.flatRaw) ∧
    (∀ e ∈ rawEntries p sp base buf, base ≤ e.flatRaw ∧ e.flatRaw ≤ base + buf.length) ∧
    (∀ v ∈ ((rawEntries p sp base buf).map FlatIndex.flatRaw).head?, v = base) := by
  induction buf with
  | nil => intro p sp base; refine ⟨List.chain'_nil, ?_, ?_⟩ <;> simp [rawEntries]
  | cons c rest ih =>
    intro p sp base
    obtain ⟨ihChain, ihMem, ihHead⟩ := ih ⟨p.x + 1, p.y⟩ sp (base + 1)
    refine ⟨?_, ?_, ?_⟩
    · simp only [rawEntries, List.map_cons]
      exact ihChain.cons' (fun y hy => by have := ihHead y hy; omega)
    · intro e he
      simp only [rawEntries, List.mem_cons] at he
      rcases he with h | h
      · subst h; simp
      · have := ihMem e h
        simp only [List.length_cons]
        omega
    · intro v hv
      simp only [rawEntries, List.map_cons, List.head?_cons, Option.mem_def,
        Option.some.injEq] at hv
      omega

/-- Invariant carried through the flattening fold: `rawIndex`'s `flatRaw`
offsets are non-decreasing and never exceed the current `flatRaw` length. -/
def RawMono (s : FlattenState) : Prop :=
  List.Chain' (· ≤ ·) (s.rawIndex.map FlatIndex.flatRaw) ∧
  ∀ e ∈ s.rawIndex, e.flatRaw ≤ s.flatRaw.length

theorem rawMono_append (s : FlattenState) (ent : List FlatIndex) (growth : Nat)
    (hm : RawMono s)
    (hchain : List.Chain' (· ≤ ·) (ent.map FlatIndex.flatRaw))
    (hmem : ∀ e ∈ ent, s.flatRaw.length ≤ e.flatRaw ∧
      e.flatRaw ≤ s.flatRaw.length + growth)
    (hold : ∀ e ∈ s.rawIndex, e.flatRaw ≤ s.flatRaw.length) :
    List.Chain' (· ≤ ·) ((s.rawIndex ++ ent).map FlatIndex.flatRaw) ∧
    ∀ e ∈ s.rawIndex ++ ent, e.flatRaw ≤ s.flatRaw.length + growth := by
  constructor
  · rw [List.map_append]
    refine hm.1.append hchain ?_
    intro x hx y hy
    have hxm : x ∈ s.rawIndex.map FlatIndex.flatRaw := by
      obtain ⟨h, heq⟩ := List.mem_getLast?_eq_getLast hx
      exact heq ▸ List.getLast_mem h
    obtain ⟨e, he, rfl⟩ := List.mem_map.1 hxm
    have hym : y ∈ ent.map FlatIndex.flatRaw := List.mem_of_mem_head? hy
    obtain ⟨f, hf, rfl⟩ := List.mem_map.1 hym
    have h1 := hold e he
    have h2 := (hmem f hf).1
    omega
  · intro e he
    rcases List.mem_append.1 he with h | h
    · have := hold e h; omega
    · exact (hmem e h).2

theorem flattenStep_rawMono (s : FlattenState) (t : Token) (hm : RawMono s) :
    RawMono (flattenStep s t) := by
  obtain ⟨hchain, hbound⟩ := hm
  cases hk : t.kind with
  | chr r =>
    have hf := rawEntries_facts t.buffer t.pos s.screenPos s.flatRaw.length
    have := rawMono_append s (rawEntries t.pos s.screenPos s.flatRaw.length t.buffer)
      t.buffer.length ⟨hchain, hbound⟩ hf.1 hf.2.1 hbound
    constructor
    · simpa [flattenStep, hk] using this.1
    · intro e he
      simp only [flattenStep, hk] at he ⊢
      have := this.2 e he
      simp only [List.length_append]
      omega
  | newline =>
    have := rawMono_append s [⟨t.pos, s.screenPos, s.flatRaw.length⟩] 1
      ⟨hchain, hbound⟩ (List.chain'_singleton _)
      (by intro e he; simp only [List.mem_singleton] at he; subst he; simp) hbound
    constructor
    · simpa [flattenStep, hk] using this.1
    · intro e he
      simp only [flattenStep, hk] at he ⊢
      have := this.2 e he
      simp only [List.length_append, List.length_singleton]
      omega
  | eof =>
    have := rawMono_append s [⟨t.pos, s.screenPos, s.flatRaw.length⟩] 0
      ⟨hchain, hbound⟩ (List.chain'_singleton _)
      (by intro e he; simp only [List.mem_singleton] at he; subst he; simp) hbound
    constructor
    · simpa [flattenStep, hk] using this.1
    · intro e he
      simp only [flattenStep, hk] at he ⊢
      have := this.2 e he
      omega
  | start =>
    have hf := rawEntries_facts t.buffer t.pos s.screenPos s.flatRaw.length
    have := rawMono_append s (rawEntries t.pos s.screenPos s.flatRaw.length t.buffer)
      t.buffer.length ⟨hchain, hbound⟩ hf.1 hf.2.1 hbound
    constructor
    · simpa [flattenStep, hk] using this.1
    · intro e he
      simp only [flattenStep, hk] at he ⊢
      have := this.2 e he
      simp only [List.length_append]
      omega
  | selectStart =>
    have hf := rawEntries_facts t.buffer t.pos s.screenPos s.flatRaw.length
    have := rawMono_append s (rawEntries t.pos s.screenPos s.flatRaw.length t.buffer)
      t.buffer.length ⟨hchain, hbound⟩ hf.1 hf.2.1 hbound
    constructor
    · simpa [flattenStep, hk] using this.1
    · intro e he
      simp only [flattenStep, hk] at he ⊢
      have := this.2 e he
      simp only [List.length_append]
      omega
  | selectEnd =>
    have hf := rawEntries_facts t.buffer t.pos s.screenPos s.flatRaw.length
    have := rawMono_append s (rawEntries t.pos s.screenPos s.flatRaw.length t.buffer)
      t.buffer.length ⟨hchain, hbound⟩ hf.1 hf.2.1 hbound
    constructor
    · simpa [flattenStep, hk] using this.1
    · intro e he
      simp only [flattenStep, hk] at he ⊢
      have := this.2 e he
      simp only [List.length_append]
      omega
  | style fg bg =>
    have hf := rawEntries_facts t.buffer t.pos s.screenPos s.flatRaw.length
    have := rawMono_append s (rawEntries t.pos s.screenPos s.flatRaw.length t.buffer)
      t.buffer.length ⟨hchain, hbound⟩ hf.1 hf.2.1 hbound
    constructor
    · simpa [flattenStep, hk] using this.1
    · intro e he
      simp only [flattenStep, hk] at he ⊢
      have := this.2 e he
      simp only [List.length_append]
      omega

theorem foldl_flattenStep_rawMono (ts : List Token) :
    ∀ s : FlattenState, RawMono s → RawMono (ts.foldl flattenStep s) := by
  induction ts with
  | nil => intro s h; exact h
  | cons t rest ih => intro s h; exact ih _ (flattenStep_rawMono s t h)

/-- C2: for the input `"ab<select-from>c<select-to>"`, `flattenWithIndex`
returns `flatScreen = "abc"` and `flatRaw` equal to the input verbatim; and
for every input buffer, the `flatRaw` offsets of successive `rawIndex`
entries are monotonically non-decreasing. -/
theorem flattenWithIndex_example_and_monotone :
    (flattenWithIndex (stringToRunes "ab<select-from>c<select-to>".toList)).flatScreen =
      "abc".toList ∧
    (flattenWithIndex (stringToRunes "ab<select-from>c<select-to>".toList)).flatRaw =
      "ab<select-from>c<select-to>".toList ∧
    ∀ rs : List (List Char),
      List.Chain' (· ≤ ·) ((flattenWithIndex rs).rawIndex.map FlatIndex.flatRaw) := by
  refine ⟨by decide, by decide, fun rs => ?_⟩
  exact (foldl_flattenStep_rawMono (parseTokens rs) ⟨[], [], [], [], ⟨0, 0⟩⟩
    ⟨List.chain'_nil, by simp⟩).1

/-- A compiled regular expression as consumed by `replace`: Go's `regexp`
package is an external collaborator, modelled by the two operations the
engine uses — `FindStringIndex` (leftmost match, half-open rune offsets) and
`ReplaceAllString`. -/
structure GoRegex where
  find : List Char → Option (Nat × Nat)
  replaceAll : List Char → List Char → List Char

/-- Leftmost occurrence of a literal, as `FindStringIndex` of a literal
pattern: scan positions left to right. -/
def litFindAux (lit : List Char) : Nat → List Char → Option (Nat × Nat)
  | i, [] => if lit.isPrefixOf [] then some (i, i + lit.length) else none
  | i, c :: rest =>
    if lit.isPrefixOf (c :: rest) then some (i, i + lit.length)
    else litFindAux lit (i + 1) rest

def litFind (lit s : List Char) : Option (Nat × Nat) := litFindAux lit 0 s

/-- `ReplaceAllString` driven by a find function: replace the leftmost match,
continue after its end.  (Guarded against zero-length matches with a fuel
bound; the engine's substituted patterns here have non-empty matches.) -/
def regexReplaceAllAux (find : List Char → Option (Nat × Nat)) (repl : List Char) :
    Nat → List Char → List Char
  | 0, s => s
  | fuel + 1, s =>
    match find s with
    | none => s
    | some (ms, me) =>
      if me = 0 then s
      else s.take ms ++ repl ++ regexReplaceAllAux find repl fuel (s.drop me)

def goRegexReplaceAll (find : List Char → Option (Nat × Nat)) (s repl : List Char) :
    List Char :=
  regexReplaceAllAux find repl (s.length + 1) s

/-- A literal pattern such as `regexp.MustCompile("a")`. -/
def litRegex (lit : List Char) : GoRegex :=
  ⟨litFind lit, fun s repl => goRegexReplaceAll (litFind lit) s repl⟩

/-- First alternative of `(<select-to>|<select-from>)` matching at the head
of `s` (Go regexp alternation tries the alternatives in written order). -/
def selTokAt (s : List Char) : Option Nat :=
  if selectToToken.isPrefixOf s then some selectToToken.length
  else if selectFromToken.isPrefixOf s then some selectFromToken.length
  else none

/-- Latest position at or after offset `j` where a selection token matches:
the greedy `(.*)` of `selectionPattern` makes the closing group match as late
as possible. -/
def lastSelTokAux : Nat → List Char → Option (Nat × Nat)
  | _, [] => none
  | j, c :: rest =>
    match lastSelTokAux (j + 1) rest with
    | some r => some r
    | none => (selTokAt (c :: rest)).map (fun m => (j, m))

/-- `FindStringIndex` for `selectionPattern` =
`(?s)(<select-to>|<select-from>)(.*)(<select-to>|<select-from>)`: leftmost
start where an opening selection token matches and a closing one follows,
with the greedy `(.*)` pushing the closing token as far right as possible. -/
def selectionFindAux : Nat → List Char → Option (Nat × Nat)
  | _, [] => none
  | i, c :: rest =>
    match selTokAt (c :: rest) with
    | some k =>
      match lastSelTokAux 0 ((c :: rest).drop k) with
      | some jm => some (i, i + k + jm.1 + jm.2)
      | none => selectionFindAux (i + 1) rest
    | none => selectionFindAux (i + 1) rest

def selectionFind (s : List Char) : Option (Nat × Nat) := selectionFindAux 0 s

/-- Go `selectionPattern`. -/
def selectionRegex : GoRegex :=
  ⟨selectionFind, fun s repl => goRegexReplaceAll selectionFind s repl⟩

/-- The empty pattern `regexp.MustCompile("")`: `FindStringIndex` always
returns `[0, 0]`. -/
def emptyRegex : GoRegex :=
  ⟨fun _ => some (0, 0), fun s repl => goRegexReplaceAll (fun _ => some (0, 0)) s repl⟩

/-- One invocation of the decision callback of `replace`: the matched text
and the raw and screen segments it was given. -/
abbrev QueryCall := List Char × Segment × Segment

/-- The mutable state of the `replace` loop (final iteration, lines
1116-1138): the scan offset into the unchanging haystack and the
accumulated result runes. -/
structure RepState where
  haystackOffset : Nat
  resRunes : List Char
deriving DecidableEq, Repr

inductive RepStepRes where
  | next (st : RepState) (calls : List QueryCall)
  | done (st : RepState) (calls : List QueryCall)
  | oobIndex
  | oobSlice
deriving DecidableEq, Repr

/-- One iteration of the `replace` loop (final iteration, lines 1117-1138):
find the next match in the remaining haystack; look its start/end offsets up
in the remaining index table (a Go panic if out of bounds, `oobIndex`);
invoke the decision callback; on acceptance splice the substituted
replacement into `resRunes` (a Go panic if the slice bound exceeds the
current result, `oobSlice`); advance the offset by the match end and return
when it passes the last haystack rune. -/
def replaceStep (re : GoRegex) (repl haystack : List Char) (hindex : List FlatIndex)
    (query : List Char → Segment → Segment → Bool) (st : RepState) : RepStepRes :=
  let remainingHaystack := haystack.drop st.haystackOffset
  let remainingIndex := hindex.drop st.haystackOffset
  match re.find remainingHaystack with
  | none => RepStepRes.done st []
  | some (ms, me) =>
    match remainingIndex.get? ms, remainingIndex.get? me with
    | some startIndex, some endIndex =>
      let matched := (remainingHaystack.take me).drop ms
      let rawSeg : Segment := ⟨startIndex.raw, endIndex.raw⟩
      let screenSeg : Segment := ⟨startIndex.screen, endIndex.screen⟩
      let finish : List Char → RepStepRes := fun res' =>
        let off' := st.haystackOffset + me
        if haystack.length ≤ off' then
          RepStepRes.done ⟨off', res'⟩ [(matched, rawSeg, screenSeg)]
        else RepStepRes.next ⟨off', res'⟩ [(matched, rawSeg, screenSeg)]
      if query matched rawSeg screenSeg then
        if st.resRunes.length < startIndex.flatRaw then RepStepRes.oobSlice
        else finish (st.resRunes.take startIndex.flatRaw ++ re.replaceAll matched repl ++
          remainingHaystack.drop me)
      else finish st.resRunes
    | _, _ => RepStepRes.oobIndex

inductive RepRunRes where
  | finished (st : RepState) (trace : List QueryCall)
  | crashedIndex (trace : List QueryCall)
  | crashedSlice (trace : List QueryCall)
  | fuelOut (st : RepState) (trace : List QueryCall)
deriving DecidableEq, Repr

def replaceRun (re : GoRegex) (repl haystack : List Char) (hindex : List FlatIndex)
    (query : List Char → Segment → Segment → Bool) :
    Nat → RepState → List QueryCall → RepRunRes
  | 0, st, tr => RepRunRes.fuelOut st tr
  | fuel + 1, st, tr =>
    match replaceStep re repl haystack hindex query st with
    | RepStepRes.next st' calls => replaceRun re repl haystack hindex query fuel st' (tr ++ calls)
    | RepStepRes.done st' calls => RepRunRes.finished st' (tr ++ calls)
    | RepStepRes.oobIndex => RepRunRes.crashedIndex tr
    | RepStepRes.oobSlice => RepRunRes.crashedSlice tr

/-- Go `replace` (final iteration, lines 1103-1139): flatten once, pick the
haystack and index table by search space, run the loop.  `resRunes` starts as
a copy of `flatRaw`; a `fuel` of one more than the haystack length is enough
for any loop that advances at every iteration. -/
def replace (rs : List (List Char)) (raw : Bool) (re : GoRegex) (repl : List Char)
    (query : List Char → Segment → Segment → Bool) : RepRunRes :=
  let f := flattenWithIndex rs
  let haystack := if raw then f.flatRaw else f.flatScreen
  let hindex := if raw then f.rawIndex else f.screenIndex
  replaceRun re repl haystack hindex query (haystack.length + 1) ⟨0, f.flatRaw⟩ []

/-- The buffer returned by `replace` (`stringToRunes(string(resRunes))`) with
the decision-callback trace, when the loop ran to completion. -/
def replaceResult (rs : List (List Char)) (raw : Bool) (re : GoRegex) (repl : List Char)
    (query : List Char → Segment → Segment → Bool) :
    Option (List (List Char) × List QueryCall) :=
  match replace rs raw re repl query with
  | RepRunRes.finished st tr => some (stringToRunes st.resRunes, tr)
  | _ => none

/-- C1: for the raw buffer `"abc"`, `replace` in raw space with pattern `a`,
replacement `d` and an always-true decision callback yields `"dbc"` and
invokes the callback once with matched text `"a"` and raw segment
(0,0)-(1,0); for `"ab<select-from>c<select-to>"` with the selection pattern
and empty replacement in raw space, the result is `"ab"`. -/
theorem replace_examples :
    replaceResult (stringToRunes "abc".toList) true (litRegex ['a']) ['d']
        (fun _ _ _ => true) =
      some ([['d', 'b', 'c']],
        [(['a'], ⟨⟨0, 0⟩, ⟨1, 0⟩⟩, ⟨⟨0, 0⟩, ⟨1, 0⟩⟩)]) ∧
    replaceResult (stringToRunes "ab<select-from>c<select-to>".toList) true
        selectionRegex [] (fun _ _ _ => true) =
      some ([['a', 'b']],
        [("<select-from>c<select-to>".toList, ⟨⟨2, 0⟩, ⟨27, 0⟩⟩, ⟨⟨2, 0⟩, ⟨3, 0⟩⟩)]) := by
  constructor <;> decide

/-- C6 counterexample: with the empty pattern (`regexp.MustCompile("")`,
whose every match is `[0,0]`) the `replace` loop does not terminate — one
step from the initial state on buffer `"a"` returns to the very same state,
and running the loop exhausts any fuel. -/
theorem replace_empty_pattern_loops :
    replaceStep emptyRegex [] ((flattenWithIndex [['a']]).flatRaw)
        ((flattenWithIndex [['a']]).rawIndex) (fun _ _ _ => false) ⟨0, ['a']⟩ =
      RepStepRes.next ⟨0, ['a']⟩ [([], ⟨⟨0, 0⟩, ⟨0, 0⟩⟩, ⟨⟨0, 0⟩, ⟨0, 0⟩⟩)] ∧
    replace [['a']] true emptyRegex [] (fun _ _ _ => false) =
      RepRunRes.fuelOut ⟨0, ['a']⟩
        [([], ⟨⟨0, 0⟩, ⟨0, 0⟩⟩, ⟨⟨0, 0⟩, ⟨0, 0⟩⟩),
         ([], ⟨⟨0, 0⟩, ⟨0, 0⟩⟩, ⟨⟨0, 0⟩, ⟨0, 0⟩⟩)] := by
  constructor <;> decide

def RepRunRes.isFuelOut : RepRunRes → Bool
  | RepRunRes.fuelOut _ _ => true
  | _ => false

theorem replaceStep_next_advances (re : GoRegex) (repl haystack : List Char)
    (hindex : List FlatIndex) (query : List Char → Segment → Segment → Bool)
    (st st' : RepState) (calls : List QueryCall)
    (hre : ∀ s ms me, re.find s = some (ms, me) → 0 < me)
    (h : replaceStep re repl haystack hindex query st = RepStepRes.next st' calls) :
    st.haystackOffset < st'.haystackOffset ∧ st'.haystackOffset < haystack.length := by
  simp only [replaceStep] at h
  split at h
  · simp at h
  · rename_i ms me hfind
    have hme : 0 < me := hre _ _ _ hfind
    split at h
    · split at h
      · split at h
        · simp at h
        · split at h
          · simp at h
          · rename_i hoff
            cases h
            dsimp only
            omega
      · split at h
        · simp at h
        · rename_i hoff
          cases h
          dsimp only
          omega
    · simp at h

theorem replaceRun_no_fuelOut (re : GoRegex) (repl haystack : List Char)
    (hindex : List FlatIndex) (query : List Char → Segment → Segment → Bool)
    (hre : ∀ s ms me, re.find s = some (ms, me) → 0 < me) :
    ∀ (fuel : Nat) (st : RepState) (tr : List QueryCall),
      haystack.length - st.haystackOffset < fuel →
      (replaceRun re repl haystack hindex query fuel st tr).isFuelOut = false := by
  intro fuel
  induction fuel with
  | zero => intro st tr h; omega
  | succ fuel ih =>
    intro st tr h
    simp only [replaceRun]
    cases hstep : replaceStep re repl haystack hindex query st with
    | next st2 calls =>
      have hadv := replaceStep_next_advances re repl haystack hindex query st st2 calls hre hstep
      exact ih st2 (tr ++ calls) (by omega)
    | done st2 calls => rfl
    | oobIndex => rfl
    | oobSlice => rfl

theorem litFindAux_spec (lit : List Char) :
    ∀ (s : List Char) (i ms me : Nat), litFindAux lit i s = some (ms, me) →
      i ≤ ms ∧ me = ms + lit.length ∧ me ≤ i + s.length := by
  intro s
  induction s with
  | nil =>
    intro i ms me h
    simp only [litFindAux] at h
    split at h
    · rename_i hpre
      cases h
      have : lit = [] := by
        cases lit with
        | nil => rfl
        | cons a l => simp [List.isPrefixOf] at hpre
      simp [this]
    · cases h
  | cons c rest ih =>
    intro i ms me h
    simp only [litFindAux] at h
    split at h
    · rename_i hpre
      cases h
      have hlen : lit.length ≤ (c :: rest).length :=
        (List.isPrefixOf_iff_prefix.1 hpre).length_le
      simp only [List.length_cons] at hlen ⊢
      refine ⟨le_rfl, trivial, ?_⟩
      omega
    · have := ih (i + 1) ms me h
      simp only [List.length_cons]
      omega

/-- Every match of a non-empty literal pattern has a positive end offset. -/
theorem litFind_pos (lit : List Char) (hlit : lit ≠ []) :
    ∀ (s : List Char) (ms me : Nat), (litRegex lit).find s = some (ms, me) → 0 < me := by
  intro s ms me h
  have := litFindAux_spec lit s 0 ms me h
  have : 0 < lit.length := List.length_pos.mpr hlit
  omega

/-- C6 amended: for every raw buffer, replacement template and decision
callback, and every pattern whose matches always have a positive end offset
(in particular any pattern that cannot match the empty string), the `replace`
loop terminates — the scan offset strictly advances at every iteration, so
the fuel of one more than the haystack length is never exhausted.  (The
original claim quantified over every pattern; `replace_empty_pattern_loops`
shows the empty pattern loops forever.) -/
theorem replace_terminates_of_positive_matches (re : GoRegex)
    (hre : ∀ s ms me, re.find s = some (ms, me) → 0 < me)
    (rs : List (List Char)) (raw : Bool) (repl : List Char)
    (query : List Char → Segment → Segment → Bool) :
    (replace rs raw re repl query).isFuelOut = false := by
  unfold replace
  exact replaceRun_no_fuelOut re repl _ _ query hre _ _ _ (by omega)

/-- Witness for `replace_terminates_of_positive_matches` at the literal
pattern `a` on the buffer `"ab"`. -/
theorem replace_terminates_witness :
    (replace [['a', 'b']] true (litRegex ['a']) ['d'] (fun _ _ _ => true)).isFuelOut =
      false :=
  replace_terminates_of_positive_matches (litRegex ['a'])
    (litFind_pos ['a'] (by decide)) [['a', 'b']] true ['d'] (fun _ _ _ => true)

/-- The raw-space search index of the superseded iteration's `replace` (old
editor.go lines 201-215): one point per rune plus one per newline — with no
trailing entry.  The Go loop variable `x` persists across lines, so an empty
line reuses the previous line's final x for its newline entry. -/
def oldLineEntries (y : Int) : Int → List Char → List Point
  | _, [] => []
  | x, _ :: rest => ⟨x, y⟩ :: oldLineEntries y (x + 1) rest

def oldContentRawAux (lastX : Int) (y : Int) : List (List Char) → List Char × List Point
  | [] => ([], [])
  | [line] => (line, oldLineEntries y 0 line)
  | line :: rest =>
    let lastX' := if line = [] then lastX else (line.length : Int) - 1
    let p := oldContentRawAux lastX' (y + 1) rest
    (line ++ '\n' :: p.1, oldLineEntries y 0 line ++ ⟨lastX' + 1, y⟩ :: p.2)

def oldContentRaw (rs : List (List Char)) : List Char × List Point :=
  oldContentRawAux 0 0 rs

inductive OldStepRes where
  | ret
  | oobStart
  | oobEnd
  | cont (newContent : List Char) (newOffset : Nat)
deriving DecidableEq, Repr

/-- One iteration of the superseded iteration's `replace` loop (old
editor.go lines 219-253, raw branch): find the next match in the content
from the scan offset on, then look up `processedContentIndex[matchIndex[0]]`
and `processedContentIndex[matchIndex[1]]` — the line carrying the TODO
about going out of bounds when the match covers the entire buffer.  An
out-of-range lookup is a Go panic, reported here as `oobStart`/`oobEnd`. -/
def oldReplaceStep (re : GoRegex) (repl : List Char)
    (query : List Char → Point → Point → Bool)
    (content : List Char) (contentIndex : List Point) (contentOffset : Nat) : OldStepRes :=
  let processedContent := content.drop contentOffset
  let processedContentIndex := contentIndex.drop contentOffset
  match re.find processedContent with
  | none => OldStepRes.ret
  | some (ms, me) =>
    match processedContentIndex.get? ms with
    | none => OldStepRes.oobStart
    | some startIdx =>
      match processedContentIndex.get? me with
      | none => OldStepRes.oobEnd
      | some endIdx =>
        let matched := (processedContent.take me).drop ms
        if query matched startIdx endIdx then
          OldStepRes.cont
            (content.take contentOffset ++ processedContent.take ms ++
              re.replaceAll matched repl ++ processedContent.drop me)
            (contentOffset + me)
        else OldStepRes.cont content contentOffset

/-- C7: there is a buffer and pattern for which a replace whose match spans
the entire remaining haystack indexes past the end of the match-index table:
in the superseded iteration's `replace` (whose index table has no trailing
entry — the documented TODO), buffer `"abc"` with pattern `abc` makes the
lookup of the match's end offset (3, in a 3-entry table) out of bounds. -/
theorem oldReplace_end_lookup_out_of_bounds :
    (oldContentRaw [['a', 'b', 'c']]).1 = "abc".toList ∧
    (oldContentRaw [['a', 'b', 'c']]).2.length = 3 ∧
    (litRegex "abc".toList).find "abc".toList = some (0, 3) ∧
    oldReplaceStep (litRegex "abc".toList) [] (fun _ _ _ => true)
        (oldContentRaw [['a', 'b', 'c']]).1 (oldContentRaw [['a', 'b', 'c']]).2 0 =
      OldStepRes.oobEnd := by
  refine ⟨by decide, by decide, by decide, by decide⟩

/-- Append a rune to the last line (Go `res[len(res)-1] = append(...)` in
`plain`; the token stream always begins with `start`, so the result list is
never empty when a character token arrives). -/
def appendLast (res : List (List Char)) (r : Char) : List (List Char) :=
  match res with
  | [] => []
  | [l] => [l ++ [r]]
  | l :: rest => l :: appendLast rest r

/-- One token's effect in `plain` (Go lines 1025-1037): `start` and
`newline` open a new line, a character token appends to the last line,
everything else is dropped. -/
def plainStep (res : List (List Char)) (t : Token) : List (List Char) :=
  match t.kind with
  | TokenKind.start => res ++ [[]]
  | TokenKind.chr r => appendLast res r
  | TokenKind.newline => res ++ [[]]
  | _ => res

/-- Go `plain` (lines 1025-1037). -/
def plain (r : List (List Char)) : List (List Char) :=
  (parseTokens r).foldl plainStep []

/-- Go `PlainText` (lines 1021-1023). -/
def PlainText (s : List Char) : List Char :=
  runesToString (plain (stringToRunes s))

theorem stringToRunes_ne_nil (s : List Char) : stringToRunes s ≠ [] := by
  cases s with
  | nil => simp [stringToRunes]
  | cons c rest =>
    simp only [stringToRunes]
    split <;> simp

theorem runesToString_stringToRunes (s : List Char) :
    runesToString (stringToRunes s) = s := by
  induction s with
  | nil => rfl
  | cons c rest ih =>
    rcases hr : stringToRunes rest with _ | ⟨r0, rs⟩
    · exact absurd hr (stringToRunes_ne_nil rest)
    · by_cases hc : c = '\n'
      · subst hc
        rw [hr] at ih
        cases rs with
        | nil => simp_all [stringToRunes, runesToString, hr]
        | cons r1 rs' => simp_all [stringToRunes, runesToString, hr]
      · rw [hr] at ih
        cases rs with
        | nil => simp_all [stringToRunes, runesToString, hr]
        | cons r1 rs' => simp_all [stringToRunes, runesToString, hr]

theorem mem_of_mem_stringToRunes :
    ∀ (s l : List Char) (c : Char), l ∈ stringToRunes s → c ∈ l → c ∈ s := by
  intro s
  induction s with
  | nil =>
    intro l c hl hc
    simp [stringToRunes] at hl
    subst hl
    cases hc
  | cons a rest ih =>
    intro l c hl hc
    rcases hr : stringToRunes rest with _ | ⟨r0, rs⟩
    · exact absurd hr (stringToRunes_ne_nil rest)
    · by_cases ha : a = '\n'
      · subst ha
        simp only [stringToRunes, if_pos rfl] at hl
        rcases List.mem_cons.1 hl with h | h
        · subst h; cases hc
        · exact List.mem_cons_of_mem _ (ih l c h hc)
      · simp only [stringToRunes, if_neg ha, hr] at hl
        rcases List.mem_cons.1 hl with h | h
        · subst h
          simp only [List.headD_cons] at hc
          rcases List.mem_cons.1 hc with h' | h'
          · subst h'; exact List.mem_cons_self _ _
          · refine List.mem_cons_of_mem _ (ih r0 c ?_ h')
            rw [hr]; exact List.mem_cons_self _ _
        · refine List.mem_cons_of_mem _ (ih l c ?_ hc)
          rw [hr]
          exact List.mem_cons_of_mem _ h

theorem goStringReplaceAll_id (p : Char) (ps repl : List Char) :
    ∀ s, (∀ c ∈ s, c ≠ p) → goStringReplaceAll (p :: ps) repl s = s := by
  intro s
  induction s with
  | nil => intro _; rw [goStringReplaceAll]
  | cons c rest ih =>
    intro hc
    have hcp : c ≠ p := hc c (List.mem_cons_self c rest)
    have hpre : ¬((p :: ps).isPrefixOf (c :: rest) = true) := by
      rw [List.isPrefixOf_iff_prefix, List.cons_prefix_cons]
      rintro ⟨h, -⟩
      exact hcp h.symm
    rw [goStringReplaceAll, dif_neg (by simp : ¬(p :: ps = [])), if_neg hpre,
      ih (fun d hd => hc d (List.mem_cons_of_mem c hd))]

theorem Escape_id (s : List Char) (hc : ∀ c ∈ s, c ≠ '&' ∧ c ≠ '<' ∧ c ≠ '>') :
    Escape s = s := by
  unfold Escape
  rw [goStringReplaceAll_id '&' [] _ s (fun c h => (hc c h).1),
    goStringReplaceAll_id '<' [] _ s (fun c h => (hc c h).2.1),
    goStringReplaceAll_id '>' [] _ s (fun c h => (hc c h).2.2)]

/-- The token list emitted for a markup-free line: one character token per
rune, with positions advancing by one column. -/
def cleanToks (y : Int) : Int → List Char → List Token
  | _, [] => []
  | x, c :: rest => ⟨⟨x, y⟩, [c], TokenKind.chr c⟩ :: cleanToks y (x + 1) rest

theorem parseLine_clean (y : Int) :
    ∀ (line : List Char), (∀ c ∈ line, c ≠ '&' ∧ c ≠ '<') →
    ∀ (sel : Bool) (px tx x : Int),
      ∃ px' tx', parseLine y ⟨ParseState.visible, sel, [], px, tx⟩ x line =
        (⟨ParseState.visible, sel, [], px', tx'⟩, cleanToks y x line) := by
  intro line
  induction line with
  | nil => intro _ sel px tx x; exact ⟨px, tx, rfl⟩
  | cons c rest ih =>
    intro hc sel px tx x
    have hc1 := hc c (List.mem_cons_self c rest)
    obtain ⟨px', tx', ih'⟩ := ih (fun d hd => hc d (List.mem_cons_of_mem c hd)) sel x x (x + 1)
    refine ⟨px', tx', ?_⟩
    simp only [parseLine, parseStep, List.nil_append, if_neg hc1.1, if_neg hc1.2]
    rw [ih']
    rfl

theorem appendLast_snoc (acc : List (List Char)) (cur : List Char) (r : Char) :
    appendLast (acc ++ [cur]) r = acc ++ [cur ++ [r]] := by
  induction acc with
  | nil => rfl
  | cons l rest ih =>
    cases h : rest ++ [cur] with
    | nil => exact absurd h (by simp)
    | cons a as =>
      simp only [List.cons_append, appendLast, h]
      rw [← h, ih]

theorem plain_fold_cleanToks (y : Int) :
    ∀ (line : List Char) (x : Int) (acc : List (List Char)) (cur : List Char),
      (cleanToks y x line).foldl plainStep (acc ++ [cur]) = acc ++ [cur ++ line] := by
  intro line
  induction line with
  | nil => intro x acc cur; simp [cleanToks]
  | cons c rest ih =>
    intro x acc cur
    simp only [cleanToks, List.foldl_cons, plainStep, appendLast_snoc]
    rw [ih (x + 1) acc (cur ++ [c])]
    simp

theorem plain_fold_parseTokensFrom :
    ∀ (lines : List (List Char)), lines ≠ [] →
      (∀ l ∈ lines, ∀ c ∈ l, c ≠ '&' ∧ c ≠ '<') →
    ∀ (y : Int) (sel : Bool) (px tx : Int) (acc : List (List Char)) (cur : List Char),
      (parseTokensFrom y ⟨ParseState.visible, sel, [], px, tx⟩ lines).foldl plainStep
          (acc ++ [cur]) =
        acc ++ (cur ++ lines.headD []) :: lines.tail := by
  intro lines
  induction lines with
  | nil => intro h; exact absurd rfl h
  | cons line rest ih =>
    intro _ hclean y sel px tx acc cur
    have hline := hclean line (List.mem_cons_self _ _)
    obtain ⟨px', tx', hp⟩ := parseLine_clean y line hline sel px tx 0
    cases rest with
    | nil =>
      simp only [parseTokensFrom, hp, List.foldl_append]
      rw [plain_fold_cleanToks]
      simp [plainStep]
    | cons l2 rest2 =>
      simp only [parseTokensFrom, hp, List.foldl_append, List.foldl_cons]
      rw [plain_fold_cleanToks]
      have hnl : plainStep (acc ++ [cur ++ line]) ⟨⟨tx' + 1, y⟩, [], TokenKind.newline⟩ =
          (acc ++ [cur ++ line]) ++ [[]] := rfl
      rw [hnl, ih (by simp) (fun l hl => hclean l (List.mem_cons_of_mem _ hl)) (y + 1)
        sel (tx' + 1) tx' (acc ++ [cur ++ line]) []]
      simp

theorem plain_clean (s : List Char) (hc : ∀ c ∈ s, c ≠ '&' ∧ c ≠ '<') :
    plain (stringToRunes s) = stringToRunes s := by
  rcases hr : stringToRunes s with _ | ⟨l, ls⟩
  · exact absurd hr (stringToRunes_ne_nil s)
  · unfold plain parseTokens
    simp only [List.foldl_cons]
    have hstart : plainStep [] ⟨⟨0, 0⟩, [], TokenKind.start⟩ = [] ++ [[]] := rfl
    rw [hstart, plain_fold_parseTokensFrom (l :: ls) (by simp)
      (fun l' hl' c hcl => hc c (mem_of_mem_stringToRunes s l' c (hr ▸ hl') hcl))
      0 false 0 0 [] []]
    simp

/-- C4: for every string containing none of the literal characters `&`, `<`,
`>`, decoding the tokenizer's output of `Escape(s)` (that is,
`PlainText(Escape(s))`) reconstructs `s` exactly. -/
theorem plainText_escape_round_trip (s : List Char)
    (hc : ∀ c ∈ s, c ≠ '&' ∧ c ≠ '<' ∧ c ≠ '>') :
    PlainText (Escape s) = s := by
  rw [Escape_id s hc]
  unfold PlainText
  rw [plain_clean s (fun c h => ⟨(hc c h).1, (hc c h).2.1⟩)]
  exact runesToString_stringToRunes s

/-- Witness for `plainText_escape_round_trip` on a concrete two-line text. -/
theorem plainText_escape_round_trip_witness :
    (∀ c ∈ "hi there\nbye".toList, c ≠ '&' ∧ c ≠ '<' ∧ c ≠ '>') ∧
    PlainText (Escape "hi there\nbye".toList) = "hi there\nbye".toList :=
  ⟨by decide, plainText_escape_round_trip "hi there\nbye".toList (by decide)⟩

/-- Declarative reading of one well-formed color tag
`<color:RRGGBB:RRGGBB>`: exactly the literal frame with six hex digits in
each group. -/
def IsColorTag (w : List Char) : Prop :=
  ∃ h1 h2 : List Char, h1.length = 6 ∧ h2.length = 6 ∧
    (∀ c ∈ h1, hexDigit c = true) ∧ (∀ c ∈ h2, hexDigit c = true) ∧
    w = "<color:".toList ++ (h1 ++ ([':'] ++ (h2 ++ ['>'])))

/-- `s` contains a well-formed color tag as a contiguous substring. -/
def ContainsColorTag (s : List Char) : Prop :=
  ∃ u w v : List Char, s = u ++ (w ++ v) ∧ IsColorTag w

theorem stripLit_eq_some : ∀ (pat s r : List Char), stripLit pat s = some r → s = pat ++ r := by
  intro pat
  induction pat with
  | nil => intro s r h; cases h; rfl
  | cons p ps ih =>
    intro s r h
    cases s with
    | nil => cases h
    | cons c cs =>
      simp only [stripLit] at h
      split at h
      · rename_i hcp
        subst hcp
        rw [List.cons_append]
        exact congrArg _ (ih cs r h)
      · cases h

theorem stripLit_append : ∀ (pat r : List Char), stripLit pat (pat ++ r) = some r := by
  intro pat
  induction pat with
  | nil => intro r; rfl
  | cons p ps ih => intro r; simp [stripLit, ih r]

theorem grabHex_eq_some : ∀ (n : Nat) (s h r : List Char), grabHex n s = some (h, r) →
    s = h ++ r ∧ h.length = n ∧ ∀ c ∈ h, hexDigit c = true := by
  intro n
  induction n with
  | zero => intro s h r hh; cases hh; simp
  | succ n ih =>
    intro s h r hh
    cases s with
    | nil => cases hh
    | cons c cs =>
      simp only [grabHex] at hh
      split at hh
      · rename_i hhex
        rcases hg : grabHex n cs with _ | ⟨h', r'⟩ <;> rw [hg] at hh
        · cases hh
        · simp only [Option.map_some'] at hh
          obtain ⟨he, hl, hm⟩ := ih cs h' r' hg
          cases hh
          refine ⟨?_, by simp [hl], ?_⟩
          · rw [he]
            rfl
          · intro d hd
            rcases List.mem_cons.1 hd with h1 | h1
            · subst h1; exact hhex
            · exact hm d h1
      · cases hh

theorem grabHex_append : ∀ (h r : List Char), (∀ c ∈ h, hexDigit c = true) →
    grabHex h.length (h ++ r) = some (h, r) := by
  intro h
  induction h with
  | nil => intro r _; rfl
  | cons c cs ih =>
    intro r hm
    simp only [List.length_cons, List.cons_append, grabHex,
      if_pos (hm c (List.mem_cons_self c cs))]
    rw [show cs.append r = cs ++ r from rfl,
      ih r (fun d hd => hm d (List.mem_cons_of_mem c hd))]
    rfl

theorem matchColorAt_complete (g1 g2 v : List Char) (l1 : g1.length = 6)
    (l2 : g2.length = 6) (m1 : ∀ c ∈ g1, hexDigit c = true)
    (m2 : ∀ c ∈ g2, hexDigit c = true) :
    matchColorAt ("<color:".toList ++ (g1 ++ ([':'] ++ (g2 ++ (['>'] ++ v))))) =
      some (hexNat g1, hexNat g2) := by
  unfold matchColorAt
  rw [stripLit_append]
  simp only [Option.some_bind]
  have hg1 : grabHex 6 (g1 ++ ([':'] ++ (g2 ++ (['>'] ++ v)))) =
      some (g1, [':'] ++ (g2 ++ (['>'] ++ v))) := by
    rw [← l1]
    exact grabHex_append g1 _ m1
  rw [hg1]
  simp only [Option.some_bind]
  rw [stripLit_append]
  simp only [Option.some_bind]
  have hg2 : grabHex 6 (g2 ++ (['>'] ++ v)) = some (g2, ['>'] ++ v) := by
    rw [← l2]
    exact grabHex_append g2 _ m2
  rw [hg2]
  simp only [Option.some_bind]
  rw [stripLit_append]
  rfl

theorem matchColorAt_isSome_iff (s : List Char) :
    (matchColorAt s).isSome = true ↔ ∃ w v, s = w ++ v ∧ IsColorTag w := by
  constructor
  · intro h
    unfold matchColorAt at h
    rcases h1 : stripLit "<color:".toList s with _ | s1 <;> rw [h1] at h
    · simp at h
    simp only [Option.some_bind] at h
    rcases h2 : grabHex 6 s1 with _ | ⟨g1, s2⟩ <;> rw [h2] at h
    · simp at h
    simp only [Option.some_bind] at h
    rcases h3 : stripLit [':'] s2 with _ | s3 <;> rw [h3] at h
    · simp at h
    simp only [Option.some_bind] at h
    rcases h4 : grabHex 6 s3 with _ | ⟨g2, s4⟩ <;> rw [h4] at h
    · simp at h
    simp only [Option.some_bind] at h
    rcases h5 : stripLit ['>'] s4 with _ | v <;> rw [h5] at h
    · simp at h
    obtain ⟨e2, l1, m1⟩ := grabHex_eq_some 6 s1 g1 s2 h2
    obtain ⟨e4, l2, m2⟩ := grabHex_eq_some 6 s3 g2 s4 h4
    refine ⟨"<color:".toList ++ (g1 ++ ([':'] ++ (g2 ++ ['>']))), v, ?_,
      g1, g2, l1, l2, m1, m2, rfl⟩
    rw [stripLit_eq_some _ _ _ h1, e2, stripLit_eq_some _ _ _ h3, e4,
      stripLit_eq_some _ _ _ h5]
    simp
  · rintro ⟨w, v, he, g1, g2, l1, l2, m1, m2, hw⟩
    subst hw
    subst he
    rw [show ("<color:".toList ++ (g1 ++ ([':'] ++ (g2 ++ ['>'])))) ++ v =
      "<color:".toList ++ (g1 ++ ([':'] ++ (g2 ++ (['>'] ++ v)))) from by simp,
      matchColorAt_complete g1 g2 v l1 l2 m1 m2]
    rfl

theorem isColorTag_ne_nil (w : List Char) (h : IsColorTag w) : w ≠ [] := by
  obtain ⟨g1, g2, _, _, _, _, rfl⟩ := h
  simp

theorem colorTagFind_isSome_iff :
    ∀ s : List Char, (colorTagFind s).isSome = true ↔ ContainsColorTag s := by
  intro s
  induction s with
  | nil =>
    simp only [colorTagFind, Option.isSome_none, Bool.false_eq_true, false_iff]
    rintro ⟨u, w, v, he, hw⟩
    have hne := isColorTag_ne_nil w hw
    have he' := he.symm
    simp only [List.append_eq_nil] at he'
    exact hne he'.2.1
  | cons c rest ih =>
    simp only [colorTagFind]
    rcases hm : matchColorAt (c :: rest) with _ | r
    · simp only
      rw [ih]
      constructor
      · rintro ⟨u, w, v, he, hw⟩
        exact ⟨c :: u, w, v, by rw [he]; rfl, hw⟩
      · rintro ⟨u, w, v, he, hw⟩
        cases u with
        | nil =>
          exfalso
          have hsome : (matchColorAt (c :: rest)).isSome = true :=
            (matchColorAt_isSome_iff _).2 ⟨w, v, by simpa using he, hw⟩
          rw [hm] at hsome
          cases hsome
        | cons u0 us =>
          simp only [List.cons_append, List.cons.injEq] at he
          exact ⟨us, w, v, he.2, hw⟩
    · simp only [Option.isSome_some, true_iff]
      have hsome : (matchColorAt (c :: rest)).isSome = true := by rw [hm]; rfl
      obtain ⟨w, v, he, hw⟩ := (matchColorAt_isSome_iff _).1 hsome
      exact ⟨[], w, v, by simpa using he, hw⟩

/-- C8 counterexample: the tag span `<x<color:aaaaaa:bbbbbb>` — one single
tag, consumed from `<` to the first `>` — has buffered content that is not
exactly `<select-from>`, `<select-to>` or a well-formed color tag, yet the
tokenizer emits a `style` token for it, because `colorTagPattern` is
searched (not anchored) inside the buffered span. -/
theorem parseTokens_nonexact_tag_emits_style :
    parseTokens (stringToRunes "<x<color:aaaaaa:bbbbbb>".toList) =
      [⟨⟨0, 0⟩, [], TokenKind.start⟩,
       ⟨⟨0, 0⟩, "<x<color:aaaaaa:bbbbbb>".toList, TokenKind.style 11184810 12303291⟩,
       ⟨⟨23, 0⟩, [], TokenKind.eof⟩] ∧
    ¬ IsColorTag "<x<color:aaaaaa:bbbbbb>".toList ∧
    "<x<color:aaaaaa:bbbbbb>".toList ≠ selectFromToken ∧
    "<x<color:aaaaaa:bbbbbb>".toList ≠ selectToToken := by
  refine ⟨by decide, ?_, by decide, by decide⟩
  rintro ⟨g1, g2, l1, l2, m1, m2, heq⟩
  have h7 := congrArg (List.take 7) heq
  rw [List.take_left' (by decide)] at h7
  exact absurd h7 (by decide)

/-- C8 amended: when the tokenizer closes a `<...>` tag span, it emits a
selection token iff the buffered span equals one of the selection literals;
otherwise it emits a `style` token iff the buffered span (not necessarily
exactly, but as a substring) contains a well-formed color tag
`<color:RRGGBB:RRGGBB>`, and emits nothing at all otherwise; a `&...;`
escape whose buffered span is none of `&amp;`, `&lt;`, `&gt;` is consumed
with no emitted token. -/
theorem parseStep_tag_escape_amended (y x : Int) (s : PTState) :
    (s.st = ParseState.tag →
      ¬ (s.buffer ++ ['>'] = selectFromToken ∨ s.buffer ++ ['>'] = selectToToken) →
      ((∃ fg bg, (parseStep y s x '>').2 =
          [⟨⟨s.posX, y⟩, s.buffer ++ ['>'], TokenKind.style fg bg⟩]) ↔
        ContainsColorTag (s.buffer ++ ['>'])) ∧
      (¬ ContainsColorTag (s.buffer ++ ['>']) → (parseStep y s x '>').2 = [])) ∧
    (s.st = ParseState.escape →
      ¬ (s.buffer ++ [';'] = "&amp;".toList ∨ s.buffer ++ [';'] = "&lt;".toList ∨
        s.buffer ++ [';'] = "&gt;".toList) →
      (parseStep y s x ';').2 = []) := by
  obtain ⟨st0, sel0, buf0, px0, tx0⟩ := s
  constructor
  · intro hst hsel
    cases hst
    rcases hf : colorTagFind (buf0 ++ ['>']) with _ | ⟨fg, bg⟩
    · have hres : (parseStep y ⟨ParseState.tag, sel0, buf0, px0, tx0⟩ x '>').2 = [] := by
        simp [parseStep, if_neg hsel, hf]
      refine ⟨⟨?_, ?_⟩, fun _ => hres⟩
      · rintro ⟨fg, bg, hemit⟩
        rw [hres] at hemit
        cases hemit
      · intro hc
        have := (colorTagFind_isSome_iff _).2 hc
        rw [hf] at this
        cases this
    · have hres : (parseStep y ⟨ParseState.tag, sel0, buf0, px0, tx0⟩ x '>').2 =
          [⟨⟨px0, y⟩, buf0 ++ ['>'], TokenKind.style fg bg⟩] := by
        simp [parseStep, if_neg hsel, hf]
      refine ⟨⟨fun _ => ?_, fun _ => ⟨fg, bg, hres⟩⟩, fun hc => ?_⟩
      · exact (colorTagFind_isSome_iff _).1 (by rw [hf]; rfl)
      · exact absurd ((colorTagFind_isSome_iff _).1 (by rw [hf]; rfl)) hc
  · intro hst hne
    cases hst
    have h1 : ¬ (buf0 ++ [';'] = "&amp;".toList) := fun h => hne (Or.inl h)
    have h2 : ¬ (buf0 ++ [';'] = "&lt;".toList) := fun h => hne (Or.inr (Or.inl h))
    have h3 : ¬ (buf0 ++ [';'] = "&gt;".toList) := fun h => hne (Or.inr (Or.inr h))
    simp only [String.toList] at h1 h2 h3
    simp [parseStep, h1, h2, h3]

/-- Witness for `parseStep_tag_escape_amended`: closing the tag span
`<x<color:aaaaaa:bbbbbb>` emits a style token, and a malformed escape
`&x;` emits nothing. -/
theorem parseStep_tag_escape_amended_witness :
    (∃ fg bg,
      (parseStep 0 ⟨ParseState.tag, false, "<x<color:aaaaaa:bbbbbb".toList, 0, 21⟩ 22 '>').2 =
        [⟨⟨0, 0⟩, "<x<color:aaaaaa:bbbbbb".toList ++ ['>'], TokenKind.style fg bg⟩]) ∧
    (parseStep 0 ⟨ParseState.escape, false, "&x".toList, 0, 1⟩ 2 ';').2 = [] := by
  constructor
  · refine ((parseStep_tag_escape_amended 0 22
      ⟨ParseState.tag, false, "<x<color:aaaaaa:bbbbbb".toList, 0, 21⟩).1 rfl
      (by decide)).1.mpr ?_
    exact ⟨"<x".toList,
      "<color:".toList ++ ("aaaaaa".toList ++ ([':'] ++ ("bbbbbb".toList ++ ['>']))), [],
      by decide,
      "aaaaaa".toList, "bbbbbb".toList, by decide, by decide, by decide, by decide, by decide⟩
  · exact (parseStep_tag_escape_amended 0 2
      ⟨ParseState.escape, false, "&x".toList, 0, 1⟩).2 rfl (by decide)

/-- Append one element to the last inner list (Go's
`xs[len(xs)-1] = append(xs[len(xs)-1], a)`). -/
def pushLast {α : Type} (xs : List (List α)) (a : α) : List (List α) :=
  match xs with
  | [] => []
  | [l] => [l ++ [a]]
  | l :: rest => l :: pushLast rest a

/-- The screen buffer and screen-to-raw index built by `redraw`. -/
structure ScreenState where
  screenBuffer : List (List Char)
  screenBufferIndex : List (List Point)
deriving DecidableEq, Repr

def beginLine (s : ScreenState) : ScreenState :=
  ⟨s.screenBuffer ++ [[]], s.screenBufferIndex ++ [[]]⟩

/-- Close the current wrapped line: append the sentinel `{x: -1, y: rawLineIdx}`. -/
def endLine (s : ScreenState) (rawLineIdx : Int) : ScreenState :=
  ⟨s.screenBuffer, pushLast s.screenBufferIndex ⟨-1, rawLineIdx⟩⟩

/-- One token's effect on the screen buffer in `redraw` (final iteration,
lines 1856-1880).  The style bookkeeping of `redraw` (active style, selection
inversion, style index) does not influence the screen buffer or the index
and is not modelled. -/
def redrawStep (width : Int) (s : ScreenState) (t : Token) : ScreenState :=
  match t.kind with
  | TokenKind.start => beginLine s
  | TokenKind.newline => beginLine (endLine s t.pos.y)
  | TokenKind.chr r =>
    let s := ⟨pushLast s.screenBuffer r, pushLast s.screenBufferIndex t.pos⟩
    if ((s.screenBuffer.getLastD []).length : Int) > width - 1 then
      beginLine (endLine s t.pos.y)
    else s
  | TokenKind.eof => endLine s t.pos.y
  | _ => s

/-- The screen buffer and index that `redraw` rebuilds from the raw buffer
(width or height zero yields empty output, lines 1831-1834). -/
def buildScreen (width height : Int) (rawBuffer : List (List Char)) : ScreenState :=
  if width = 0 ∨ height = 0 then ⟨[], []⟩
  else (parseTokens rawBuffer).foldl (redrawStep width) ⟨[], []⟩

/-- The view state the scrolling claims are about: `lineOffset` plus the raw
buffer; the screen buffer is rebuilt from the raw buffer by `redraw`, so it
is derived. -/
structure ViewState where
  lineOffset : Int
  rawBuffer : List (List Char)
deriving Repr

def screenLineCount (width height : Int) (st : ViewState) : Int :=
  ((buildScreen width height st.rawBuffer).screenBuffer.length : Int)

/-- The invariant claimed for `lineOffset`:
`0 ≤ lineOffset ≤ max(0, screenLineCount - viewportHeight/2)`. -/
def lineOffsetInvariant (width height : Int) (st : ViewState) : Prop :=
  0 ≤ st.lineOffset ∧
    st.lineOffset ≤ max 0 (screenLineCount width height st - height / 2)

/-- Go `limitInt` (lines 1566-1573): clamp into `[minInc, maxExc)` — the
minimum clamp is applied first, so a `maxExc ≤ minInc` leaves `maxExc - 1`. -/
def limitInt (i minInc maxExc : Int) : Int :=
  let j := if i < minInc then minInc else i
  if j ≥ maxExc then maxExc - 1 else j

/-- Go `direction`. -/
inductive Dir where
  | up
  | left
  | down
  | right
deriving DecidableEq, Repr

/-- Go `canScroll` (lines 1491-1500). -/
def canScroll (width height : Int) (st : ViewState) : Dir → Bool
  | Dir.up => 0 < st.lineOffset
  | Dir.down => st.lineOffset + 1 < screenLineCount width height st - height / 2
  | _ => false

/-- Go `scroll` (lines 1502-1515): adjust `lineOffset` by one and clamp with
`limitInt(0, screenLineCount - height/2)`; a zero-sized screen is a no-op. -/
def scroll (width height : Int) (st : ViewState) (d : Dir) : ViewState :=
  if width = 0 ∨ height = 0 then st
  else
    let lo := match d with
      | Dir.up => st.lineOffset - 1
      | Dir.down => st.lineOffset + 1
      | _ => st.lineOffset
    { st with lineOffset := limitInt lo 0 (screenLineCount width height st - height / 2) }

/-- Go `SetContent` (lines 1916-1923): replace the raw buffer and redraw —
`lineOffset` is left untouched. -/
def setContentOp (s : List Char) (st : ViewState) : ViewState :=
  { st with rawBuffer := stringToRunes s }

/-- The `KeyHome` handler (lines 1309-1317): cursor and `lineOffset` to 0. -/
def homeKeyOp (st : ViewState) : ViewState :=
  { st with lineOffset := 0 }

/-- The `KeyEnd` handler (lines 1318-1327):
`lineOffset = maxInt(0, screenLineCount - height/2)`. -/
def endKeyOp (width height : Int) (st : ViewState) : ViewState :=
  { st with lineOffset := max 0 (screenLineCount width height st - height / 2) }

instance lineOffsetInvariantDecidable (width height : Int) (st : ViewState) :
    Decidable (lineOffsetInvariant width height st) := by
  unfold lineOffsetInvariant
  infer_instance

/-- C9 counterexample: a content change followed by redraw does not preserve
the `lineOffset` invariant — with a 10-row viewport, `lineOffset = 5` and 20
screen lines satisfy it, but after `SetContent("a")` the screen buffer has 1
line, the bound drops to `max(0, 1 - 5) = 0`, and `lineOffset` is still 5. -/
theorem setContent_breaks_lineOffset_invariant :
    lineOffsetInvariant 80 10 ⟨5, List.replicate 20 ['a']⟩ ∧
    ¬ lineOffsetInvariant 80 10 (setContentOp ['a'] ⟨5, List.replicate 20 ['a']⟩) := by
  constructor <;> decide

/-- C9 amended: scrolling (under its `canScroll` guard) and the Home/End
handlers preserve the invariant
`0 ≤ lineOffset ≤ max(0, screenLineCount - viewportHeight/2)`; a content
change followed by redraw does not re-clamp `lineOffset` and can violate it
(`setContent_breaks_lineOffset_invariant`). -/
theorem scroll_home_end_preserve_lineOffset_invariant (width height : Int)
    (st : ViewState) (hinv : lineOffsetInvariant width height st) :
    (∀ d, canScroll width height st d = true →
      lineOffsetInvariant width height (scroll width height st d)) ∧
    lineOffsetInvariant width height (homeKeyOp st) ∧
    lineOffsetInvariant width height (endKeyOp width height st) := by
  obtain ⟨h0, h1⟩ := hinv
  simp only [lineOffsetInvariant, screenLineCount] at h1 ⊢
  refine ⟨?_, ⟨le_rfl, le_max_left _ _⟩, ⟨le_max_left _ _, le_rfl⟩⟩
  intro d hd
  unfold scroll
  split
  · exact ⟨h0, h1⟩
  · cases d with
    | up =>
      simp only [canScroll, decide_eq_true_eq] at hd
      simp only [limitInt, screenLineCount]
      split_ifs <;> omega
    | down =>
      simp only [canScroll, screenLineCount, decide_eq_true_eq] at hd
      simp only [limitInt, screenLineCount]
      split_ifs <;> omega
    | left => simp [canScroll] at hd
    | right => simp [canScroll] at hd

/-- Witness for `scroll_home_end_preserve_lineOffset_invariant` at a
concrete state: 3 raw lines, a 4-row viewport, `lineOffset = 0`. -/
theorem scroll_invariant_witness :
    lineOffsetInvariant 10 4 ⟨0, [['a'], ['b'], ['c']]⟩ ∧
    lineOffsetInvariant 10 4 (homeKeyOp ⟨0, [['a'], ['b'], ['c']]⟩) :=
  ⟨by decide,
    (scroll_home_end_preserve_lineOffset_invariant 10 4 ⟨0, [['a'], ['b'], ['c']]⟩
      (by decide)).2.1⟩

/-- Go `deleteAt`'s raw-buffer mutation (final iteration, lines 995-1018),
given the raw point the screen position resolved to: joining of lines for
the sentinel `x = -1`, whole-escape removal when the rune at the point is
`&` and enough characters follow, single-rune removal otherwise.  `none`
models a Go panic on an out-of-range index. -/
def deleteFromRaw (rawBuffer : List (List Char)) (p : Point) : Option (List (List Char)) :=
  if p.x < 0 then
    if p.y + 1 < (rawBuffer.length : Int) then
      match rawBuffer.get? p.y.toNat, rawBuffer.get? (p.y.toNat + 1) with
      | some ly, some ly1 =>
        some (rawBuffer.take p.y.toNat ++ [ly ++ ly1] ++ rawBuffer.drop (p.y.toNat + 2))
      | _, _ => none
    else some rawBuffer
  else if p.y < 0 then none
  else
    match rawBuffer.get? p.y.toNat with
    | none => none
    | some line =>
      let x := p.x.toNat
      let setLine : List Char → Option (List (List Char)) := fun l =>
        some (rawBuffer.take p.y.toNat ++ [l] ++ rawBuffer.drop (p.y.toNat + 1))
      match line.get? x with
      | none => none
      | some c =>
        if c = '&' then
          if (line.length : Int) - p.x > 5 ∧ (line.drop x).take 5 = "&amp;".toList then
            setLine (line.take x ++ line.drop (x + 5))
          else if (line.length : Int) - p.x > 4 ∧ (line.drop x).take 4 = "&gt;".toList then
            setLine (line.take x ++ line.drop (x + 4))
          else if (line.length : Int) - p.x > 4 ∧ (line.drop x).take 4 = "&lt;".toList then
            setLine (line.take x ++ line.drop (x + 4))
          else setLine (line.take x ++ line.drop (x + 1))
        else setLine (line.take x ++ line.drop (x + 1))

/-- Go `deleteAt` (final iteration, lines 993-1019): resolve the screen point
through the `screenBufferIndex` built by `redraw`, then mutate the raw
buffer. -/
def deleteAt (width height lineOffset : Int) (rawBuffer : List (List Char))
    (screenPoint : Point) : Option (List (List Char)) :=
  match (buildScreen width height rawBuffer).screenBufferIndex.get?
      (screenPoint.y + lineOffset).toNat with
  | none => none
  | some idxLine =>
    match idxLine.get? screenPoint.x.toNat with
    | none => none
    | some p => deleteFromRaw rawBuffer p

/-- C10 counterexample: with the raw buffer `"&amp;"` (the full escape
present on the line, nothing after it), `deleteAt` at screen point (0,0) —
whose raw position (0,0) is the start of the escape — removes only the `&`:
the guard `len(line)-p.x > 5` is strict, so an escape at end of line falls
through to single-rune deletion, and the rendered text goes from `&` to
`amp;` rather than losing exactly one character. -/
theorem deleteAt_escape_at_line_end :
    deleteAt 80 24 0 ["&amp;".toList] ⟨0, 0⟩ = some ["amp;".toList] ∧
    PlainText "&amp;".toList = ['&'] ∧
    PlainText "amp;".toList = "amp;".toList := by
  refine ⟨by decide, by decide, by decide⟩

/-- C10 amended: when `deleteAt` lands on the first character of a full
escape sequence and at least one more character follows the sequence on the
line (the code's guard is strict), the entire escape is removed from the raw
line in one operation. -/
theorem deleteFromRaw_removes_full_escape (pre post : List Char) (hpost : post ≠ []) :
    deleteFromRaw [pre ++ ("&amp;".toList ++ post)] ⟨(pre.length : Int), 0⟩ =
      some [pre ++ post] ∧
    deleteFromRaw [pre ++ ("&gt;".toList ++ post)] ⟨(pre.length : Int), 0⟩ =
      some [pre ++ post] ∧
    deleteFromRaw [pre ++ ("&lt;".toList ++ post)] ⟨(pre.length : Int), 0⟩ =
      some [pre ++ post] := by
  have hplen : (0 : Nat) < post.length := List.length_pos.mpr hpost
  refine ⟨?_, ?_, ?_⟩
  · unfold deleteFromRaw
    rw [if_neg (by simp : ¬((pre.length : Int) < 0)),
      if_neg (by norm_num : ¬((0 : Int) < 0))]
    simp only [Int.toNat_zero, List.get?_cons_zero, Int.toNat_natCast]
    rw [List.get?_append_right (le_refl pre.length), Nat.sub_self]
    have hget : ("&amp;".toList ++ post).get? 0 = some '&' := rfl
    simp only [hget, if_true]
    have hdrop : (pre ++ ("&amp;".toList ++ post)).drop pre.length = "&amp;".toList ++ post :=
      List.drop_left pre _
    have hl5 : ("&amp;".toList).length = 5 := rfl
    rw [if_pos ⟨by simp only [List.length_append, hl5]; push_cast; omega,
      by rw [hdrop]; exact List.take_left' hl5⟩]
    rw [List.take_left, List.drop_append 5, List.drop_left' hl5]
    simp
  · unfold deleteFromRaw
    rw [if_neg (by simp : ¬((pre.length : Int) < 0)),
      if_neg (by norm_num : ¬((0 : Int) < 0))]
    simp only [Int.toNat_zero, List.get?_cons_zero, Int.toNat_natCast]
    rw [List.get?_append_right (le_refl pre.length), Nat.sub_self]
    have hget : ("&gt;".toList ++ post).get? 0 = some '&' := rfl
    simp only [hget, if_true]
    have hdrop : (pre ++ ("&gt;".toList ++ post)).drop pre.length = "&gt;".toList ++ post :=
      List.drop_left pre _
    have hl4 : ("&gt;".toList).length = 4 := rfl
    rw [if_neg (by
      rintro ⟨-, hb⟩
      rw [hdrop] at hb
      have h1 := congrArg (fun l => l.get? 1) hb
      simp at h1)]
    rw [if_pos ⟨by simp only [List.length_append, hl4]; push_cast; omega,
      by rw [hdrop]; exact List.take_left' hl4⟩]
    rw [List.take_left, List.drop_append 4, List.drop_left' hl4]
    simp
  · unfold deleteFromRaw
    rw [if_neg (by simp : ¬((pre.length : Int) < 0)),
      if_neg (by norm_num : ¬((0 : Int) < 0))]
    simp only [Int.toNat_zero, List.get?_cons_zero, Int.toNat_natCast]
    rw [List.get?_append_right (le_refl pre.length), Nat.sub_self]
    have hget : ("&lt;".toList ++ post).get? 0 = some '&' := rfl
    simp only [hget, if_true]
    have hdrop : (pre ++ ("&lt;".toList ++ post)).drop pre.length = "&lt;".toList ++ post :=
      List.drop_left pre _
    have hl4 : ("&lt;".toList).length = 4 := rfl
    rw [if_neg (by
      rintro ⟨-, hb⟩
      rw [hdrop] at hb
      have h1 := congrArg (fun l => l.get? 1) hb
      simp at h1)]
    rw [if_neg (by
      rintro ⟨-, hb⟩
      rw [hdrop] at hb
      have h1 := congrArg (fun l => l.get? 1) hb
      simp at h1)]
    rw [if_pos ⟨by simp only [List.length_append, hl4]; push_cast; omega,
      by rw [hdrop]; exact List.take_left' hl4⟩]
    rw [List.take_left, List.drop_append 4, List.drop_left' hl4]
    simp

/-- Witness for `deleteFromRaw_removes_full_escape` on the line `x&amp;y`. -/
theorem deleteFromRaw_removes_full_escape_witness :
    deleteFromRaw ["x&amp;y".toList] ⟨1, 0⟩ = some ["xy".toList] := by
  have h := (deleteFromRaw_removes_full_escape ['x'] ['y'] (by decide)).1
  exact h

/-- One undo/redo stack entry (Go `patch`, lines 899-902): the cursor
captured before the edit and the diff-library patch set.  The diff library
is an external collaborator; its patch-set type is the parameter `P`. -/
structure UndoPatch (P : Type) where
  cursor : Point
  patches : P

/-- The editor state the undo/redo wrapper of `pollKeys` manipulates. -/
structure EdState (P : Type) where
  rawBuffer : List (List Char)
  cursor : Point
  undoPatches : List (UndoPatch P)
  redoPatches : List (UndoPatch P)

/-- One input event as seen by the undo/redo wrapper of `pollKeys`
(lines 1237-1461): a content-mutating key handler — abstracted as its effect
`f` on the raw buffer and `g` on the cursor, which also absorbs the
selection-marker block for shift-modified keys — or Ctrl-Z or Ctrl-Y. -/
inductive Ev where
  | edit (f : List (List Char) → List (List Char)) (g : Point → Point)
  | undo
  | redo

/-- One iteration of the `pollKeys` event wrapper (lines 1237-1461),
parametrized by the diff library's `PatchMake`/`PatchApply` (`mk`/`ap`):
capture `prevContent`/`prevCursor`; dispatch the event (Ctrl-Z pops the undo
stack, applies the patch to the current content and on success pushes the
inverse patch onto the redo stack; Ctrl-Y pops the redo stack and applies);
then, unless the event was Ctrl-Z (`storeUndo = false`), push an undo patch
when the serialized content changed; unless the event was Ctrl-Z or Ctrl-Y
(`clearRedo = false`), clear the redo stack. -/
def handleEvent {P : Type} (mk : List Char → List Char → P)
    (ap : P → List Char → List Char × Bool) (st : EdState P) (ev : Ev) : EdState P :=
  let prevContent := runesToString st.rawBuffer
  let prevCursor := st.cursor
  match ev with
  | Ev.edit f g =>
    let buf := f st.rawBuffer
    let cur := g st.cursor
    let newContent := runesToString buf
    let undo :=
      if newContent ≠ prevContent then
        st.undoPatches ++ [⟨prevCursor, mk newContent prevContent⟩]
      else st.undoPatches
    ⟨buf, cur, undo, []⟩
  | Ev.undo =>
    match st.undoPatches.getLast? with
    | none => st
    | some toApply =>
      let undo := st.undoPatches.dropLast
      let res := ap toApply.patches prevContent
      if res.2 then
        ⟨stringToRunes res.1, toApply.cursor, undo,
          st.redoPatches ++ [⟨toApply.cursor, mk res.1 prevContent⟩]⟩
      else ⟨st.rawBuffer, st.cursor, undo, st.redoPatches⟩
  | Ev.redo =>
    match st.redoPatches.getLast? with
    | none => st
    | some toApply =>
      let redo := st.redoPatches.dropLast
      let res := ap toApply.patches prevContent
      let buf := if res.2 then stringToRunes res.1 else st.rawBuffer
      let cur := if res.2 then toApply.cursor else st.cursor
      let newContent := runesToString buf
      let undo :=
        if newContent ≠ prevContent then
          st.undoPatches ++ [⟨prevCursor, mk newContent prevContent⟩]
        else st.undoPatches
      ⟨buf, cur, undo, redo⟩

def applyEvents {P : Type} (mk : List Char → List Char → P)
    (ap : P → List Char → List Char × Bool) (evs : List Ev) (st : EdState P) : EdState P :=
  evs.foldl (handleEvent mk ap) st

/-- A content-mutating key handler: its effect on the raw buffer and cursor. -/
structure EditEv where
  f : List (List Char) → List (List Char)
  g : Point → Point

/-- Every event in the sequence changes the serialized content of the
buffer it is applied to (the claim's "content-mutating input events"). -/
def Mutating : List EditEv → List (List Char) → Prop
  | [], _ => True
  | e :: es, b => runesToString (e.f b) ≠ runesToString b ∧ Mutating es (e.f b)

/-- `UndoChain mk c0 ps cn`: the undo stack `ps` (top at the tail) steps the
serialized content from `cn` back down to `c0` patch by patch. -/
inductive UndoChain {P : Type} (mk : List Char → List Char → P) :
    List Char → List (UndoPatch P) → List Char → Prop
  | nil (c : List Char) : UndoChain mk c [] c
  | snoc {c0 c1 c2 : List Char} {ps : List (UndoPatch P)} (cur : Point) :
      UndoChain mk c0 ps c1 → UndoChain mk c0 (ps ++ [⟨cur, mk c2 c1⟩]) c2

/-- `RedoChain mk c0 qs cn`: the redo stack `qs` (top at the tail) steps the
serialized content from `c0` back up to `cn` patch by patch. -/
inductive RedoChain {P : Type} (mk : List Char → List Char → P) :
    List Char → List (UndoPatch P) → List Char → Prop
  | nil (c : List Char) : RedoChain mk c [] c
  | snoc {c0 c1 cn : List Char} {qs : List (UndoPatch P)} (cur : Point) :
      RedoChain mk c1 qs cn → RedoChain mk c0 (qs ++ [⟨cur, mk c0 c1⟩]) cn

theorem UndoChain.consLow {P : Type} {mk : List Char → List Char → P}
    {c1 c2 : List Char} {ps : List (UndoPatch P)} (h : UndoChain mk c1 ps c2)
    (c0 : List Char) (cur : Point) :
    UndoChain mk c0 (⟨cur, mk c1 c0⟩ :: ps) c2 := by
  induction h with
  | nil => exact UndoChain.snoc cur (UndoChain.nil c0)
  | snoc cur' h' ih => exact UndoChain.snoc cur' ih

theorem RedoChain.consHigh {P : Type} {mk : List Char → List Char → P}
    {c0 c1 : List Char} {qs : List (UndoPatch P)} (h : RedoChain mk c0 qs c1)
    (c2 : List Char) (cur : Point) :
    RedoChain mk c0 (⟨cur, mk c1 c2⟩ :: qs) c2 := by
  induction h with
  | nil => exact RedoChain.snoc cur (RedoChain.nil c2)
  | snoc cur' h' ih => exact RedoChain.snoc cur' ih

theorem applyEdits_spec {P : Type} (mk : List Char → List Char → P)
    (ap : P → List Char → List Char × Bool) :
    ∀ (evs : List EditEv) (st : EdState P), Mutating evs st.rawBuffer →
      ∃ (ps : List (UndoPatch P)) (buf : List (List Char)) (cur : Point),
        applyEvents mk ap (evs.map (fun e => Ev.edit e.f e.g)) st =
          ⟨buf, cur, st.undoPatches ++ ps,
            if evs.isEmpty then st.redoPatches else []⟩ ∧
        ps.length = evs.length ∧
        UndoChain mk (runesToString st.rawBuffer) ps (runesToString buf) := by
  intro evs
  induction evs with
  | nil =>
    intro st _
    exact ⟨[], st.rawBuffer, st.cursor, by simp [applyEvents], rfl, UndoChain.nil _⟩
  | cons e es ih =>
    intro st hmut
    obtain ⟨hne, hrest⟩ := hmut
    have hstep : handleEvent mk ap st (Ev.edit e.f e.g) =
        ⟨e.f st.rawBuffer, e.g st.cursor,
          st.undoPatches ++ [⟨st.cursor, mk (runesToString (e.f st.rawBuffer))
            (runesToString st.rawBuffer)⟩], []⟩ := by
      simp only [handleEvent, if_pos hne]
    obtain ⟨ps', buf, cur, heq, hlen, hchain⟩ :=
      ih ⟨e.f st.rawBuffer, e.g st.cursor,
        st.undoPatches ++ [⟨st.cursor, mk (runesToString (e.f st.rawBuffer))
          (runesToString st.rawBuffer)⟩], []⟩ hrest
    refine ⟨⟨st.cursor, mk (runesToString (e.f st.rawBuffer))
        (runesToString st.rawBuffer)⟩ :: ps', buf, cur, ?_, by simp [hlen], ?_⟩
    · have hfold : applyEvents mk ap ((e :: es).map (fun e => Ev.edit e.f e.g)) st =
          applyEvents mk ap (es.map (fun e => Ev.edit e.f e.g))
            (handleEvent mk ap st (Ev.edit e.f e.g)) := rfl
      rw [hfold, hstep, heq]
      simp [List.append_assoc]
    · exact hchain.consLow _ st.cursor

theorem applyUndos_spec {P : Type} (mk : List Char → List Char → P)
    (ap : P → List Char → List Char × Bool)
    (hap : ∀ a b, ap (mk a b) a = (b, true)) :
    ∀ (ps : List (UndoPatch P)) (c0 cn : List Char), UndoChain mk c0 ps cn →
    ∀ (buf : List (List Char)) (cur : Point) (u0 r : List (UndoPatch P)),
      runesToString buf = cn →
      ∃ (buf' : List (List Char)) (cur' : Point) (qs : List (UndoPatch P)),
        applyEvents mk ap (List.replicate ps.length Ev.undo) ⟨buf, cur, u0 ++ ps, r⟩ =
          ⟨buf', cur', u0, r ++ qs⟩ ∧
        runesToString buf' = c0 ∧
        qs.length = ps.length ∧
        RedoChain mk c0 qs cn := by
  intro ps c0 cn h
  induction h with
  | nil =>
    intro buf cur u0 r hc
    exact ⟨buf, cur, [], by simp [applyEvents], hc, rfl, RedoChain.nil _⟩
  | snoc cur2 h' ih =>
    rename_i c1 c2 ps'
    intro buf cur u0 r hc
    have hstep : handleEvent mk ap ⟨buf, cur, u0 ++ (ps' ++ [⟨cur2, mk c2 c1⟩]), r⟩ Ev.undo =
        ⟨stringToRunes c1, cur2, u0 ++ ps', r ++ [⟨cur2, mk c1 c2⟩]⟩ := by
      have hgl : ((u0 ++ ps') ++ [(⟨cur2, mk c2 c1⟩ : UndoPatch P)]).getLast? =
          some ⟨cur2, mk c2 c1⟩ := List.getLast?_concat _
      simp only [handleEvent,
        show u0 ++ (ps' ++ [(⟨cur2, mk c2 c1⟩ : UndoPatch P)]) =
          (u0 ++ ps') ++ [⟨cur2, mk c2 c1⟩] from (List.append_assoc _ _ _).symm,
        hgl, List.dropLast_concat, hc, hap c2 c1, if_true]
    obtain ⟨buf', cur', qs', heq', hc0, hlen', hchain'⟩ :=
      ih (stringToRunes c1) cur2 u0 (r ++ [⟨cur2, mk c1 c2⟩])
        (runesToString_stringToRunes c1)
    refine ⟨buf', cur', ⟨cur2, mk c1 c2⟩ :: qs', ?_, hc0, by simp [hlen'], ?_⟩
    · have hfold : applyEvents mk ap
          (List.replicate (ps' ++ [(⟨cur2, mk c2 c1⟩ : UndoPatch P)]).length Ev.undo)
          ⟨buf, cur, u0 ++ (ps' ++ [⟨cur2, mk c2 c1⟩]), r⟩ =
          applyEvents mk ap (List.replicate ps'.length Ev.undo)
            (handleEvent mk ap ⟨buf, cur, u0 ++ (ps' ++ [⟨cur2, mk c2 c1⟩]), r⟩ Ev.undo) := by
        simp only [List.length_append, List.length_cons, List.length_nil,
          List.replicate_succ]
        rfl
      rw [hfold, hstep, heq']
      simp [List.append_assoc]
    · exact hchain'.consHigh c2 cur2

theorem applyRedos_spec {P : Type} (mk : List Char → List Char → P)
    (ap : P → List Char → List Char × Bool)
    (hap : ∀ a b, ap (mk a b) a = (b, true)) :
    ∀ (qs : List (UndoPatch P)) (c0 cn : List Char), RedoChain mk c0 qs cn →
    ∀ (buf : List (List Char)) (cur : Point) (u r : List (UndoPatch P)),
      runesToString buf = c0 →
      ∃ (buf' : List (List Char)) (cur' : Point) (u' : List (UndoPatch P)),
        applyEvents mk ap (List.replicate qs.length Ev.redo) ⟨buf, cur, u, r ++ qs⟩ =
          ⟨buf', cur', u', r⟩ ∧
        runesToString buf' = cn := by
  intro qs c0 cn h
  induction h with
  | nil =>
    intro buf cur u r hc
    exact ⟨buf, cur, u, by simp [applyEvents], hc⟩
  | snoc cur2 h' ih =>
    rename_i cLow cMid cHigh qs2
    intro buf cur u r hc
    have hgl : (r ++ (qs2 ++ [(⟨cur2, mk cLow cMid⟩ : UndoPatch P)])).getLast? =
        some ⟨cur2, mk cLow cMid⟩ := by
      rw [← List.append_assoc]
      exact List.getLast?_concat _
    have hdl : (r ++ (qs2 ++ [(⟨cur2, mk cLow cMid⟩ : UndoPatch P)])).dropLast =
        r ++ qs2 := by
      rw [← List.append_assoc]
      exact List.dropLast_concat
    have hstep : handleEvent mk ap ⟨buf, cur, u, r ++ (qs2 ++ [⟨cur2, mk cLow cMid⟩])⟩
        Ev.redo =
        ⟨stringToRunes cMid, cur2,
          (if cMid ≠ cLow then u ++ [⟨cur, mk cMid cLow⟩] else u), r ++ qs2⟩ := by
      simp only [handleEvent, hgl, hdl, hc, hap cLow cMid, if_true,
        runesToString_stringToRunes]
    obtain ⟨buf', cur', u', heq', hcn⟩ := ih (stringToRunes cMid) cur2
      (if cMid ≠ cLow then u ++ [⟨cur, mk cMid cLow⟩] else u) r
      (runesToString_stringToRunes cMid)
    refine ⟨buf', cur', u', ?_, hcn⟩
    have hfold : applyEvents mk ap
        (List.replicate (qs2 ++ [(⟨cur2, mk cLow cMid⟩ : UndoPatch P)]).length Ev.redo)
        ⟨buf, cur, u, r ++ (qs2 ++ [⟨cur2, mk cLow cMid⟩])⟩ =
        applyEvents mk ap (List.replicate qs2.length Ev.redo)
          (handleEvent mk ap ⟨buf, cur, u, r ++ (qs2 ++ [⟨cur2, mk cLow cMid⟩])⟩ Ev.redo) := by
      simp only [List.length_append, List.length_cons, List.length_nil,
        List.replicate_succ]
      rfl
    rw [hfold, hstep, heq']

/-- C5: for any sequence of content-mutating input events starting from any
initial content, performing as many undos (Ctrl-Z) restores the serialized
raw-buffer content bit-identical to the content before the first event, and
subsequently performing as many redos (Ctrl-Y) restores the content
bit-identical to the content after the last event.  The third-party diff
library is abstracted by the contract the spec names for it:
`applyPatch (makePatch a b) a = (b, true)`. -/
theorem undo_redo_round_trip {P : Type} (mk : List Char → List Char → P)
    (ap : P → List Char → List Char × Bool)
    (hap : ∀ a b, ap (mk a b) a = (b, true))
    (b0 : List (List Char)) (c0 : Point) (u0 r0 : List (UndoPatch P))
    (evs : List EditEv) (hmut : Mutating evs b0) :
    runesToString (applyEvents mk ap (List.replicate evs.length Ev.undo)
        (applyEvents mk ap (evs.map (fun e => Ev.edit e.f e.g))
          ⟨b0, c0, u0, r0⟩)).rawBuffer = runesToString b0 ∧
    runesToString (applyEvents mk ap (List.replicate evs.length Ev.redo)
        (applyEvents mk ap (List.replicate evs.length Ev.undo)
          (applyEvents mk ap (evs.map (fun e => Ev.edit e.f e.g))
            ⟨b0, c0, u0, r0⟩))).rawBuffer =
      runesToString (applyEvents mk ap (evs.map (fun e => Ev.edit e.f e.g))
        ⟨b0, c0, u0, r0⟩).rawBuffer := by
  obtain ⟨ps, buf, cur, heq, hlen, hchain⟩ :=
    applyEdits_spec mk ap evs ⟨b0, c0, u0, r0⟩ hmut
  cases evs with
  | nil => simp [applyEvents]
  | cons e es =>
    rw [heq]
    dsimp only
    simp only [List.isEmpty_cons, Bool.false_eq_true, if_false]
    rw [← hlen]
    obtain ⟨buf2, cur2, qs, heq2, hc0, hlen2, hrchain⟩ :=
      applyUndos_spec mk ap hap ps (runesToString b0) (runesToString buf) hchain
        buf cur u0 [] rfl
    simp only [List.nil_append] at heq2
    rw [heq2]
    constructor
    · exact hc0
    · rw [← hlen2]
      obtain ⟨buf3, cur3, u3, heq3, hcn⟩ :=
        applyRedos_spec mk ap hap qs (runesToString b0) (runesToString buf) hrchain
          buf2 cur2 u0 [] hc0
      simp only [List.nil_append] at heq3
      rw [heq3]
      exact hcn

/-- A minimal concrete diff library satisfying the documented contract:
a patch stores the from/to texts verbatim, and applying it succeeds exactly
on the text it was made from. -/
def pairPatchMake (a b : List Char) : List Char × List Char := (a, b)

def pairPatchApply (p : List Char × List Char) (s : List Char) :
    List Char × Bool :=
  if s = p.1 then (p.2, true) else (s, false)

/-- A concrete content-mutating event: overwrite the buffer with "x". -/
def mutEdit : EditEv := ⟨fun _ => [['x']], fun p => p⟩

theorem undo_redo_round_trip_witness :
    (∀ a b, pairPatchApply (pairPatchMake a b) a = (b, true)) ∧
    Mutating [mutEdit] [['a']] ∧
    (runesToString (applyEvents pairPatchMake pairPatchApply
        (List.replicate [mutEdit].length Ev.undo)
        (applyEvents pairPatchMake pairPatchApply
          ([mutEdit].map (fun e => Ev.edit e.f e.g))
          ⟨[['a']], ⟨0, 0⟩, [], []⟩)).rawBuffer = runesToString [['a']] ∧
      runesToString (applyEvents pairPatchMake pairPatchApply
          (List.replicate [mutEdit].length Ev.redo)
          (applyEvents pairPatchMake pairPatchApply
            (List.replicate [mutEdit].length Ev.undo)
            (applyEvents pairPatchMake pairPatchApply
              ([mutEdit].map (fun e => Ev.edit e.f e.g))
              ⟨[['a']], ⟨0, 0⟩, [], []⟩))).rawBuffer =
        runesToString (applyEvents pairPatchMake pairPatchApply
          ([mutEdit].map (fun e => Ev.edit e.f e.g))
          ⟨[['a']], ⟨0, 0⟩, [], []⟩).rawBuffer) :=
  ⟨fun a b => by simp [pairPatchApply, pairPatchMake],
   ⟨by decide, trivial⟩,
   undo_redo_round_trip pairPatchMake pairPatchApply
     (fun a b => by simp [pairPatchApply, pairPatchMake])
     [['a']] ⟨0, 0⟩ [] [] [mutEdit] ⟨by decide, trivial⟩⟩
